import Mathlib

/-!
Verification of the two deployment packager scripts
(`src/deployment/homebrew/packager.py` — "Script A", and
`src/deployment/scoop/packager.py` — "Script B").

Both scripts read positional command-line arguments, read a template file,
substitute values with Python's `string.Template.safe_substitute`, and write
the result to an output file.  We embed:

  * Python's `Template.safe_substitute` for the default delimiter `$` and
    the default ASCII identifier pattern `[_a-zA-Z][_a-zA-Z0-9]*`
    (the stdlib pattern is `(?a:[_a-z][_a-z0-9]*)` compiled with
    `re.IGNORECASE`).  After a `$` the regex tries, in order:
    `$$` (escape, yields a single `$`), `$name`, `\x7b`-braced `name`,
    and otherwise the empty "invalid" group, which `safe_substitute`
    renders as the bare `$` and scanning resumes right after it.
    A matched name that is not a key of the mapping is left verbatim.
  * Python's `str.strip()` (for the ASCII whitespace that can occur in the
    inputs of interest) and `str.replace("v", "")`.
  * Each script as a function from a filesystem model and an argument
    vector to an optional (output path, rendered text) pair; `none` means
    the process dies with an uncaught error before the output file is
    opened for writing (argument lookup and the template read both happen
    before the `open(..., "w")` in the sources).

Standard-output printing in the scripts is purely observational and is not
modelled.
-/

namespace Packager

/-- ASCII identifier start, per the stdlib `Template` idpattern
`(?a:[_a-z]...)` under `re.IGNORECASE`. -/
def isIdStart (c : Char) : Bool :=
  c = '_' || ('a' ≤ c && c ≤ 'z') || ('A' ≤ c && c ≤ 'Z')

/-- ASCII identifier continuation character. -/
def isIdCont (c : Char) : Bool :=
  isIdStart c || ('0' ≤ c && c ≤ '9')

/-- What `safe_substitute` emits for a `$name` match: the mapped value if
`name` is a key, otherwise the match itself, verbatim. -/
def emitNamed (m : List (List Char × List Char)) (acc : List Char) : List Char :=
  match List.lookup acc m with
  | some v => v
  | none => '$' :: acc

/-- What `safe_substitute` emits for a braced match: the mapped value if the
name is a key, otherwise the whole braced match, verbatim. -/
def emitBraced (m : List (List Char × List Char)) (acc : List Char) : List Char :=
  match List.lookup acc m with
  | some v => v
  | none => '$' :: '{' :: (acc ++ ['}'])

/-- Scanner state while walking the template, mirroring how the stdlib
regex consumes a potential placeholder after a `$`. -/
inductive Mode where
  | top : Mode
  | dollar : Mode
  | brace : Mode
  | name : List Char → Mode
  | bname : List Char → Mode
deriving Repr, DecidableEq

/-- The `safe_substitute` scan over the template characters.  `top` is
ordinary text; `dollar` means a `$` was just consumed; `brace` means `$` and
an opening brace were consumed; `name acc` / `bname acc` accumulate a plain /
braced identifier.  Invalid delimiter uses emit the bare `$` and rescanning
continues right after it, exactly as `re.sub` with the empty `invalid`
group does. -/
def scanM (m : List (List Char × List Char)) : Mode → List Char → List Char
  | .top, [] => []
  | .top, c :: cs => if c = '$' then scanM m .dollar cs else c :: scanM m .top cs
  | .dollar, [] => ['$']
  | .dollar, c :: cs =>
      if c = '$' then '$' :: scanM m .top cs
      else if c = '{' then scanM m .brace cs
      else if isIdStart c then scanM m (.name [c]) cs
      else '$' :: c :: scanM m .top cs
  | .brace, [] => ['$', '{']
  | .brace, c :: cs =>
      if isIdStart c then scanM m (.bname [c]) cs
      else if c = '$' then '$' :: '{' :: scanM m .dollar cs
      else '$' :: '{' :: c :: scanM m .top cs
  | .name acc, [] => emitNamed m acc
  | .name acc, c :: cs =>
      if isIdCont c then scanM m (.name (acc ++ [c])) cs
      else if c = '$' then emitNamed m acc ++ scanM m .dollar cs
      else emitNamed m acc ++ c :: scanM m .top cs
  | .bname acc, [] => '$' :: '{' :: acc
  | .bname acc, c :: cs =>
      if c = '}' then emitBraced m acc ++ scanM m .top cs
      else if isIdCont c then scanM m (.bname (acc ++ [c])) cs
      else if c = '$' then ('$' :: '{' :: acc) ++ scanM m .dollar cs
      else ('$' :: '{' :: acc) ++ c :: scanM m .top cs

/-- `Template(t).safe_substitute(**m)` on strings. -/
def safeSubstitute (m : List (String × String)) (t : String) : String :=
  ⟨scanM (m.map fun p => (p.1.data, p.2.data)) .top t.data⟩

/-- ASCII whitespace, `' \t\n\r\v\f'` — the characters `str.strip()`
removes for the ASCII inputs this program receives. -/
def isPySpace (c : Char) : Bool :=
  c = ' ' || c = '\t' || c = '\n' || c = '\r' || c = '\x0b' || c = '\x0c'

/-- Python `str.strip()`: drop leading and trailing whitespace. -/
def pyStrip (s : String) : String :=
  ⟨((s.data.dropWhile isPySpace).reverse.dropWhile isPySpace).reverse⟩

/-- Python `str.replace(old, "")` for the one-character pattern `old`:
every occurrence of the character is removed. -/
def pyReplaceChar (old : Char) : List Char → List Char
  | [] => []
  | c :: cs => if c = old then pyReplaceChar old cs else c :: pyReplaceChar old cs

/-- `args[1].replace("v", "")` from Script B. -/
def scoopVersion (s : String) : String :=
  ⟨pyReplaceChar 'v' s.data⟩

/-- The keyword mapping of Script A's `safe_substitute` call
(`version=..., hash_mac=..., hash_mac_arm=..., hash_linux=...`). -/
def homebrewMap (version hash_mac hash_mac_arm hash_linux : String) :
    List (String × String) :=
  [("version", version), ("hash_mac", hash_mac),
   ("hash_mac_arm", hash_mac_arm), ("hash_linux", hash_linux)]

/-- The keyword mapping of Script B's `safe_substitute` call
(`version64=..., hash_64=...`). -/
def scoopMap (version64 hash_64 : String) : List (String × String) :=
  [("version64", version64), ("hash_64", hash_64)]

/-- Script A end to end.  `fs` maps a path to the contents of a readable
file at that path (`none` = unreadable/absent).  The result is the
(output path, rendered text) pair the script writes, or `none` when the
script dies (missing argument or unreadable template) before the output
file is opened. -/
def homebrewRun (fs : String → Option String) (argv : List String) :
    Option (String × String) := do
  let version ← argv[1]?
  let template_file_path ← argv[2]?
  let generated_file_path ← argv[3]?
  let hash_mac := pyStrip (← argv[4]?)
  let hash_mac_arm := pyStrip (← argv[5]?)
  let hash_linux := pyStrip (← argv[6]?)
  let tmpl ← fs template_file_path
  let substitute :=
    safeSubstitute (homebrewMap version hash_mac hash_mac_arm hash_linux) tmpl
  pure (generated_file_path, substitute)

/-- Script B end to end, same conventions as `homebrewRun`. -/
def scoopRun (fs : String → Option String) (argv : List String) :
    Option (String × String) := do
  let version64 := scoopVersion (← argv[1]?)
  let template_file_path ← argv[2]?
  let generated_file_path ← argv[3]?
  let hash_64 := pyStrip (← argv[4]?)
  let tmpl ← fs template_file_path
  pure (generated_file_path, safeSubstitute (scoopMap version64 hash_64) tmpl)

/-- Keyword mappings at the character-list level. -/
def strMap (m : List (String × String)) : List (List Char × List Char) :=
  m.map fun p => (p.1.data, p.2.data)

/-! ## Spec-side view of a template

The specification describes a template as literal text interleaved with
placeholder tokens; rendering "replaces every occurrence of each recognized
placeholder with its value, leaves unrecognized placeholder-like tokens
verbatim, and renders the `$$` escape as a single `$`".  `Tok` is that
decomposition, `flattenToks` recovers the raw template text and
`renderToks` is the spec's word-for-word rendering. -/

/-- One spec-level template token: a literal chunk, a plain `$name`
placeholder, a braced placeholder or the `$$` escape. -/
inductive Tok where
  | lit : List Char → Tok
  | name : List Char → Tok
  | braced : List Char → Tok
  | esc : Tok
deriving Repr, DecidableEq

/-- The raw template text a token list denotes. -/
def flattenToks : List Tok → List Char
  | [] => []
  | Tok.lit s :: rest => s ++ flattenToks rest
  | Tok.name n :: rest => '$' :: (n ++ flattenToks rest)
  | Tok.braced n :: rest => '$' :: '{' :: (n ++ '}' :: flattenToks rest)
  | Tok.esc :: rest => '$' :: '$' :: flattenToks rest

/-- Spec-side rendering: recognized placeholders are replaced by their
mapped value, unrecognized ones stay verbatim, `$$` becomes `$`, literal
text is untouched. -/
def renderToks (m : List (List Char × List Char)) : List Tok → List Char
  | [] => []
  | Tok.lit s :: rest => s ++ renderToks m rest
  | Tok.name n :: rest => emitNamed m n ++ renderToks m rest
  | Tok.braced n :: rest => emitBraced m n ++ renderToks m rest
  | Tok.esc :: rest => '$' :: renderToks m rest

/-- A valid placeholder name: nonempty, ASCII identifier syntax. -/
def validName (n : List Char) : Bool :=
  match n with
  | [] => false
  | c :: cs => isIdStart c && cs.all isIdCont

/-- Whether the raw text of a token list starts with an identifier
continuation character (which a preceding `$name` token would swallow). -/
def startsIdCont : List Tok → Bool
  | Tok.lit (c :: _) :: _ => isIdCont c
  | _ => false

/-- Well-formed token lists: literal chunks are nonempty and contain no
`$` (a `$` in raw text is represented by a `name`/`braced`/`esc` token),
names are valid identifiers, and a plain `$name` token is not followed by
text that begins with an identifier character. -/
def wfToks : List Tok → Bool
  | [] => true
  | Tok.lit s :: rest => !s.isEmpty && s.all (fun c => c != '$') && wfToks rest
  | Tok.name n :: rest => validName n && !startsIdCont rest && wfToks rest
  | Tok.braced n :: rest => validName n && wfToks rest
  | Tok.esc :: rest => wfToks rest

/-! ## Escape-only rendering and placeholder detection -/

/-- Left-to-right, non-overlapping replacement of the literal escape
sequence `$$` by the single delimiter `$`, all other text untouched. -/
def replaceEscapes : List Char → List Char
  | [] => []
  | [c] => [c]
  | c :: d :: rest =>
      if c = '$' ∧ d = '$' then '$' :: replaceEscapes rest
      else c :: replaceEscapes (d :: rest)

/-- Mirrors `scanM` and reports whether the scan ever matches a
placeholder whose name is a key of the mapping, i.e. whether the template
contains a recognized placeholder occurrence. -/
def hitsM (m : List (List Char × List Char)) : Mode → List Char → Bool
  | .top, [] => false
  | .top, c :: cs => if c = '$' then hitsM m .dollar cs else hitsM m .top cs
  | .dollar, [] => false
  | .dollar, c :: cs =>
      if c = '$' then hitsM m .top cs
      else if c = '{' then hitsM m .brace cs
      else if isIdStart c then hitsM m (.name [c]) cs
      else hitsM m .top cs
  | .brace, [] => false
  | .brace, c :: cs =>
      if isIdStart c then hitsM m (.bname [c]) cs
      else if c = '$' then hitsM m .dollar cs
      else hitsM m .top cs
  | .name acc, [] => (List.lookup acc m).isSome
  | .name acc, c :: cs =>
      if isIdCont c then hitsM m (.name (acc ++ [c])) cs
      else (List.lookup acc m).isSome ||
        (if c = '$' then hitsM m .dollar cs else hitsM m .top cs)
  | .bname _, [] => false
  | .bname acc, c :: cs =>
      if c = '}' then (List.lookup acc m).isSome || hitsM m .top cs
      else if isIdCont c then hitsM m (.bname (acc ++ [c])) cs
      else if c = '$' then hitsM m .dollar cs
      else hitsM m .top cs

/-- A template contains a recognized placeholder of mapping `m`. -/
def usesRecognized (m : List (String × String)) (t : String) : Bool :=
  hitsM (strMap m) .top t.data

/-! ## Character-class facts -/

theorem isIdStart_ne_dollar {c : Char} (h : isIdStart c = true) : c ≠ '$' := by
  rintro rfl; exact absurd h (by decide)

theorem isIdStart_ne_lbrace {c : Char} (h : isIdStart c = true) : c ≠ '{' := by
  rintro rfl; exact absurd h (by decide)

theorem isIdCont_ne_dollar {c : Char} (h : isIdCont c = true) : c ≠ '$' := by
  rintro rfl; exact absurd h (by decide)

theorem isIdCont_ne_rbrace {c : Char} (h : isIdCont c = true) : c ≠ '}' := by
  rintro rfl; exact absurd h (by decide)

/-- The raw text following the current position does not begin with an
identifier-continuation character. -/
def headNotIdCont : List Char → Prop
  | [] => True
  | c :: _ => isIdCont c = false

/-! ## Scanner run lemmas -/

theorem scanM_lit (m : List (List Char × List Char)) :
    ∀ (s rest : List Char), (∀ c ∈ s, c ≠ '$') →
    scanM m .top (s ++ rest) = s ++ scanM m .top rest := by
  intro s
  induction s with
  | nil => intro rest _; rfl
  | cons c cs ih =>
      intro rest h
      have hc : c ≠ '$' := h c (by simp)
      simp [scanM, hc, ih rest (fun x hx => h x (by simp [hx]))]

theorem scanM_name (m : List (List Char × List Char)) :
    ∀ (cs acc rest : List Char),
    (∀ c ∈ cs, isIdCont c = true) → headNotIdCont rest →
    scanM m (.name acc) (cs ++ rest) = emitNamed m (acc ++ cs) ++ scanM m .top rest := by
  intro cs
  induction cs with
  | nil =>
      intro acc rest _ hr
      cases rest with
      | nil => simp [scanM]
      | cons r rs =>
          have hrc : isIdCont r = false := hr
          by_cases hd : r = '$'
          · subst hd; simp [scanM, hrc]
          · simp [scanM, hrc, hd]
  | cons d ds ih =>
      intro acc rest h hr
      have hd : isIdCont d = true := h d (by simp)
      have step : scanM m (.name acc) ((d :: ds) ++ rest)
          = scanM m (.name (acc ++ [d])) (ds ++ rest) := by
        simp [scanM, hd]
      rw [step, ih (acc ++ [d]) rest (fun c hc => h c (by simp [hc])) hr]
      simp

theorem scanM_bname (m : List (List Char × List Char)) :
    ∀ (cs acc rest : List Char),
    (∀ c ∈ cs, isIdCont c = true) →
    scanM m (.bname acc) (cs ++ ('}' :: rest))
      = emitBraced m (acc ++ cs) ++ scanM m .top rest := by
  intro cs
  induction cs with
  | nil => intro acc rest _; simp [scanM]
  | cons d ds ih =>
      intro acc rest h
      have hd : isIdCont d = true := h d (by simp)
      have hne : d ≠ '}' := isIdCont_ne_rbrace hd
      have step : scanM m (.bname acc) ((d :: ds) ++ ('}' :: rest))
          = scanM m (.bname (acc ++ [d])) (ds ++ ('}' :: rest)) := by
        simp [scanM, hd, hne]
      rw [step, ih (acc ++ [d]) rest (fun c hc => h c (by simp [hc]))]
      simp

theorem flat_headNotIdCont : ∀ ts, wfToks ts = true → startsIdCont ts = false →
    headNotIdCont (flattenToks ts) := by
  intro ts hwf hs
  cases ts with
  | nil => trivial
  | cons t rest =>
      cases t with
      | lit s =>
          cases s with
          | nil => simp [wfToks] at hwf
          | cons c cs =>
              have hc : isIdCont c = false := by simpa [startsIdCont] using hs
              simpa [flattenToks, headNotIdCont] using hc
      | name n => show isIdCont '$' = false; decide
      | braced n => show isIdCont '$' = false; decide
      | esc => show isIdCont '$' = false; decide

/-- `safe_substitute` agrees with the spec-level rendering on every
well-formed token decomposition of a template. -/
theorem scanM_renderToks (m : List (List Char × List Char)) :
    ∀ ts, wfToks ts = true →
    scanM m .top (flattenToks ts) = renderToks m ts := by
  intro ts
  induction ts with
  | nil => intro _; rfl
  | cons t rest ih =>
      intro hwf
      cases t with
      | lit s =>
          simp only [wfToks, Bool.and_eq_true] at hwf
          obtain ⟨⟨hne, hnd⟩, hrest⟩ := hwf
          have hnodollar : ∀ c ∈ s, c ≠ '$' := by
            intro c hc
            simpa using List.all_eq_true.mp hnd c hc
          simp only [flattenToks, renderToks]
          rw [scanM_lit m s _ hnodollar, ih hrest]
      | name n =>
          simp only [wfToks, Bool.and_eq_true] at hwf
          obtain ⟨⟨hvn, hni⟩, hrest⟩ := hwf
          cases n with
          | nil => simp [validName] at hvn
          | cons c cs =>
              simp only [validName, Bool.and_eq_true] at hvn
              obtain ⟨hstart, hcont⟩ := hvn
              have hcd : c ≠ '$' := isIdStart_ne_dollar hstart
              have hcb : c ≠ '{' := isIdStart_ne_lbrace hstart
              have hhd : headNotIdCont (flattenToks rest) :=
                flat_headNotIdCont rest hrest (by simpa using hni)
              have step : scanM m .top (flattenToks (Tok.name (c :: cs) :: rest))
                  = scanM m (.name [c]) (cs ++ flattenToks rest) := by
                simp [flattenToks, scanM, hcd, hcb, hstart]
              rw [step,
                scanM_name m cs [c] _ (fun x hx => List.all_eq_true.mp hcont x hx) hhd,
                ih hrest]
              simp [renderToks]
      | braced n =>
          simp only [wfToks, Bool.and_eq_true] at hwf
          obtain ⟨hvn, hrest⟩ := hwf
          cases n with
          | nil => simp [validName] at hvn
          | cons c cs =>
              simp only [validName, Bool.and_eq_true] at hvn
              obtain ⟨hstart, hcont⟩ := hvn
              have step : scanM m .top (flattenToks (Tok.braced (c :: cs) :: rest))
                  = scanM m (.bname [c]) (cs ++ ('}' :: flattenToks rest)) := by
                simp [flattenToks, scanM, hstart]
              rw [step,
                scanM_bname m cs [c] _ (fun x hx => List.all_eq_true.mp hcont x hx),
                ih hrest]
              simp [renderToks]
      | esc =>
          have hrest : wfToks rest = true := hwf
          simp [flattenToks, scanM, renderToks, ih hrest]

/-! ## Escape-only rendering lemmas -/

theorem replaceEscapes_cons_ne {c : Char} (h : c ≠ '$') (cs : List Char) :
    replaceEscapes (c :: cs) = c :: replaceEscapes cs := by
  cases cs with
  | nil => rfl
  | cons d ds => simp [replaceEscapes, h]

theorem replaceEscapes_pair (cs : List Char) :
    replaceEscapes ('$' :: '$' :: cs) = '$' :: replaceEscapes cs := by
  simp [replaceEscapes]

theorem replaceEscapes_dollar_ne {d : Char} (h : d ≠ '$') (cs : List Char) :
    replaceEscapes ('$' :: d :: cs) = '$' :: replaceEscapes (d :: cs) := by
  simp [replaceEscapes, h]

theorem replaceEscapes_append (p : List Char) (l : List Char)
    (h : ∀ c ∈ p, c ≠ '$') :
    replaceEscapes (p ++ l) = p ++ replaceEscapes l := by
  induction p with
  | nil => rfl
  | cons c cs ih =>
      have hc : c ≠ '$' := h c (by simp)
      simp only [List.cons_append]
      rw [replaceEscapes_cons_ne hc, ih (fun x hx => h x (by simp [hx]))]

theorem replaceEscapes_id (l : List Char) (h : ∀ c ∈ l, c ≠ '$') :
    replaceEscapes l = l := by
  have h0 := replaceEscapes_append l [] h
  simpa [show replaceEscapes [] = [] from rfl] using h0

/-- The raw text the scanner has already consumed of a pending
placeholder, per scanner state. -/
def modePre : Mode → List Char
  | .top => []
  | .dollar => ['$']
  | .brace => ['$', '{']
  | .name acc => '$' :: acc
  | .bname acc => '$' :: '{' :: acc

/-- Scanner-state invariant: accumulated names are nonempty and free of
the delimiter (always true of states `scanM` actually reaches). -/
def modeOk : Mode → Prop
  | .name acc => acc ≠ [] ∧ ∀ c ∈ acc, c ≠ '$'
  | .bname acc => acc ≠ [] ∧ ∀ c ∈ acc, c ≠ '$'
  | _ => True

/-- When the scan never matches a recognized placeholder, `safe_substitute`
only collapses the `$$` escapes and leaves all other text verbatim. -/
theorem scanM_no_hits (m : List (List Char × List Char)) :
    ∀ (l : List Char) (mode : Mode), modeOk mode → hitsM m mode l = false →
    scanM m mode l = replaceEscapes (modePre mode ++ l) := by
  intro l
  induction l with
  | nil =>
      intro mode hok hh
      cases mode with
      | top => rfl
      | dollar => rfl
      | brace => rfl
      | name acc =>
          obtain ⟨hne, hnd⟩ := hok
          have hl : List.lookup acc m = none := by
            cases h : List.lookup acc m with
            | none => rfl
            | some v => simp [hitsM, h] at hh
          cases acc with
          | nil => exact absurd rfl hne
          | cons a as =>
              have ha : a ≠ '$' := hnd a (by simp)
              rw [show scanM m (.name (a :: as)) [] = emitNamed m (a :: as) from rfl]
              rw [show modePre (.name (a :: as)) ++ [] = '$' :: a :: as by simp [modePre]]
              rw [replaceEscapes_dollar_ne ha,
                replaceEscapes_id (a :: as) (fun c hc => hnd c hc)]
              simp [emitNamed, hl]
      | bname acc =>
          obtain ⟨hne, hnd⟩ := hok
          rw [show scanM m (.bname acc) [] = '$' :: '{' :: acc from rfl]
          rw [show modePre (.bname acc) ++ [] = '$' :: '{' :: acc by simp [modePre]]
          rw [replaceEscapes_dollar_ne (by decide),
            replaceEscapes_cons_ne (by decide),
            replaceEscapes_id acc (fun c hc => hnd c hc)]
  | cons c cs ih =>
      intro mode hok hh
      cases mode with
      | top =>
          by_cases hc : c = '$'
          · subst hc
            have hh' : hitsM m .dollar cs = false := by simpa [hitsM] using hh
            have h := ih .dollar trivial hh'
            simpa [scanM, modePre] using h
          · have hh' : hitsM m .top cs = false := by simpa [hitsM, hc] using hh
            rw [show scanM m .top (c :: cs) = c :: scanM m .top cs by simp [scanM, hc]]
            rw [ih .top trivial hh']
            simp [modePre, replaceEscapes_cons_ne hc]
      | dollar =>
          by_cases hc : c = '$'
          · subst hc
            have hh' : hitsM m .top cs = false := by simpa [hitsM] using hh
            rw [show scanM m .dollar ('$' :: cs) = '$' :: scanM m .top cs by simp [scanM]]
            rw [ih .top trivial hh']
            simp [modePre, replaceEscapes_pair]
          · by_cases hb : c = '{'
            · subst hb
              have hh' : hitsM m .brace cs = false := by simpa [hitsM] using hh
              have h := ih .brace trivial hh'
              simpa [scanM, modePre] using h
            · by_cases hs : isIdStart c = true
              · have hh' : hitsM m (.name [c]) cs = false := by
                  simpa [hitsM, hc, hb, hs] using hh
                have h := ih (.name [c]) ⟨by simp, by simpa using isIdStart_ne_dollar hs⟩ hh'
                rw [show scanM m .dollar (c :: cs) = scanM m (.name [c]) cs by
                  simp [scanM, hc, hb, hs]]
                rw [h]
                simp [modePre]
              · have hh' : hitsM m .top cs = false := by
                  simpa [hitsM, hc, hb, hs] using hh
                rw [show scanM m .dollar (c :: cs) = '$' :: c :: scanM m .top cs by
                  simp [scanM, hc, hb, hs]]
                rw [ih .top trivial hh']
                simp [modePre, replaceEscapes_dollar_ne hc, replaceEscapes_cons_ne hc]
      | brace =>
          by_cases hs : isIdStart c = true
          · have hh' : hitsM m (.bname [c]) cs = false := by simpa [hitsM, hs] using hh
            have h := ih (.bname [c]) ⟨by simp, by simpa using isIdStart_ne_dollar hs⟩ hh'
            rw [show scanM m .brace (c :: cs) = scanM m (.bname [c]) cs by simp [scanM, hs]]
            rw [h]
            simp [modePre]
          · by_cases hc : c = '$'
            · subst hc
              have hh' : hitsM m .dollar cs = false := by simpa [hitsM, hs] using hh
              rw [show scanM m .brace ('$' :: cs) = '$' :: '{' :: scanM m .dollar cs by
                simp [scanM, hs]]
              rw [ih .dollar trivial hh']
              rw [show modePre Mode.brace ++ '$' :: cs = '$' :: '{' :: ('$' :: cs) by
                simp [modePre]]
              rw [replaceEscapes_dollar_ne (by decide), replaceEscapes_cons_ne (by decide)]
              simp [modePre]
            · have hh' : hitsM m .top cs = false := by simpa [hitsM, hs, hc] using hh
              rw [show scanM m .brace (c :: cs) = '$' :: '{' :: c :: scanM m .top cs by
                simp [scanM, hs, hc]]
              rw [ih .top trivial hh']
              rw [show modePre Mode.brace ++ c :: cs = '$' :: '{' :: (c :: cs) by
                simp [modePre]]
              rw [replaceEscapes_dollar_ne (by decide), replaceEscapes_cons_ne (by decide),
                replaceEscapes_cons_ne hc]
              simp [modePre]
      | name acc =>
          obtain ⟨hne, hnd⟩ := hok
          obtain ⟨a, as, rfl⟩ : ∃ a as, acc = a :: as := by
            cases acc with
            | nil => exact absurd rfl hne
            | cons a as => exact ⟨a, as, rfl⟩
          have ha : a ≠ '$' := hnd a (by simp)
          have hrhs : replaceEscapes (modePre (.name (a :: as)) ++ c :: cs)
              = '$' :: ((a :: as) ++ replaceEscapes (c :: cs)) := by
            rw [show modePre (.name (a :: as)) ++ c :: cs
                = '$' :: ((a :: as) ++ (c :: cs)) by simp [modePre]]
            rw [show ('$' : Char) :: ((a :: as) ++ (c :: cs))
                = '$' :: a :: (as ++ (c :: cs)) by simp]
            rw [replaceEscapes_dollar_ne ha]
            rw [show (a : Char) :: (as ++ (c :: cs)) = (a :: as) ++ (c :: cs) by simp]
            rw [replaceEscapes_append (a :: as) (c :: cs) (fun x hx => hnd x hx)]
          by_cases hic : isIdCont c = true
          · have hh' : hitsM m (.name ((a :: as) ++ [c])) cs = false := by
              simpa [hitsM, hic] using hh
            have hok' : modeOk (.name ((a :: as) ++ [c])) := by
              refine ⟨by simp, ?_⟩
              intro x hx
              rcases List.mem_append.mp hx with h1 | h2
              · exact hnd x h1
              · simp at h2; subst h2; exact isIdCont_ne_dollar hic
            have h := ih (.name ((a :: as) ++ [c])) hok' hh'
            rw [show scanM m (.name (a :: as)) (c :: cs)
                = scanM m (.name ((a :: as) ++ [c])) cs by simp [scanM, hic]]
            rw [h]
            exact congrArg replaceEscapes (by simp [modePre])
          · have hlook : List.lookup (a :: as) m = none := by
              cases h : List.lookup (a :: as) m with
              | none => rfl
              | some v => simp [hitsM, hic, h] at hh
            by_cases hc : c = '$'
            · subst hc
              have hh' : hitsM m .dollar cs = false := by
                simpa [hitsM, hic, hlook] using hh
              rw [show scanM m (.name (a :: as)) ('$' :: cs)
                  = emitNamed m (a :: as) ++ scanM m .dollar cs by
                simp [scanM, hic]]
              rw [ih .dollar trivial hh', hrhs]
              simp [emitNamed, hlook, modePre]
            · have hh' : hitsM m .top cs = false := by
                simpa [hitsM, hic, hlook, hc] using hh
              rw [show scanM m (.name (a :: as)) (c :: cs)
                  = emitNamed m (a :: as) ++ c :: scanM m .top cs by
                simp [scanM, hic, hc]]
              rw [ih .top trivial hh', hrhs, replaceEscapes_cons_ne hc]
              simp [emitNamed, hlook, modePre]
      | bname acc =>
          obtain ⟨hne, hnd⟩ := hok
          have hrhs : replaceEscapes (modePre (.bname acc) ++ c :: cs)
              = '$' :: '{' :: (acc ++ replaceEscapes (c :: cs)) := by
            rw [show modePre (.bname acc) ++ c :: cs
                = '$' :: '{' :: (acc ++ (c :: cs)) by simp [modePre]]
            rw [replaceEscapes_dollar_ne (by decide)]
            rw [replaceEscapes_cons_ne (by decide)]
            rw [replaceEscapes_append acc (c :: cs) (fun x hx => hnd x hx)]
          by_cases hrb : c = '}'
          · subst hrb
            have hlook : List.lookup acc m = none := by
              cases h : List.lookup acc m with
              | none => rfl
              | some v => simp [hitsM, h] at hh
            have hh' : hitsM m .top cs = false := by simpa [hitsM, hlook] using hh
            rw [show scanM m (.bname acc) ('}' :: cs)
                = emitBraced m acc ++ scanM m .top cs by simp [scanM]]
            rw [ih .top trivial hh', hrhs, replaceEscapes_cons_ne (by decide)]
            simp [emitBraced, hlook, modePre]
          · by_cases hic : isIdCont c = true
            · have hh' : hitsM m (.bname (acc ++ [c])) cs = false := by
                simpa [hitsM, hrb, hic] using hh
              have hok' : modeOk (.bname (acc ++ [c])) := by
                refine ⟨by simp, ?_⟩
                intro x hx
                rcases List.mem_append.mp hx with h1 | h2
                · exact hnd x h1
                · simp at h2; subst h2; exact isIdCont_ne_dollar hic
              have h := ih (.bname (acc ++ [c])) hok' hh'
              rw [show scanM m (.bname acc) (c :: cs)
                  = scanM m (.bname (acc ++ [c])) cs by simp [scanM, hrb, hic]]
              rw [h]
              exact congrArg replaceEscapes (by simp [modePre])
            · by_cases hc : c = '$'
              · subst hc
                have hh' : hitsM m .dollar cs = false := by
                  simpa [hitsM, hrb, hic] using hh
                rw [show scanM m (.bname acc) ('$' :: cs)
                    = ('$' :: '{' :: acc) ++ scanM m .dollar cs by
                  simp [scanM, hrb, hic]]
                rw [ih .dollar trivial hh', hrhs]
                simp [modePre]
              · have hh' : hitsM m .top cs = false := by
                  simpa [hitsM, hrb, hic, hc] using hh
                rw [show scanM m (.bname acc) (c :: cs)
                    = ('$' :: '{' :: acc) ++ c :: scanM m .top cs by
                  simp [scanM, hrb, hic, hc]]
                rw [ih .top trivial hh', hrhs, replaceEscapes_cons_ne hc]
                simp [modePre]

/-! ## Strip lemmas -/

theorem dropWhile_head?_false {p : Char → Bool} :
    ∀ (l : List Char) (c : Char), (l.dropWhile p).head? = some c → p c = false := by
  intro l
  induction l with
  | nil => intro c h; simp [List.dropWhile] at h
  | cons x xs ih =>
      intro c h
      by_cases hx : p x = true
      · rw [List.dropWhile_cons, if_pos hx] at h
        exact ih c h
      · rw [List.dropWhile_cons, if_neg hx] at h
        have hxc : x = c := by simpa using h
        subst hxc
        simpa using hx

theorem dropWhile_getLast? {p : Char → Bool} :
    ∀ (l : List Char), l.dropWhile p ≠ [] →
    (l.dropWhile p).getLast? = l.getLast? := by
  intro l
  induction l with
  | nil => intro h; simp [List.dropWhile] at h
  | cons x xs ih =>
      intro h
      by_cases hx : p x = true
      · rw [List.dropWhile_cons, if_pos hx] at h ⊢
        rw [ih h]
        have hxs : xs ≠ [] := by
          intro he; subst he; simp [List.dropWhile] at h
        cases xs with
        | nil => exact absurd rfl hxs
        | cons y ys => rw [List.getLast?_cons_cons]
      · rw [List.dropWhile_cons, if_neg hx]

/-- `pyStrip` removes exactly a whitespace prefix and a whitespace suffix:
the result is the original text minus those, and it neither starts nor ends
with whitespace. -/
theorem pyStrip_spec (s : String) :
    ∃ p q : List Char,
      (∀ c ∈ p, isPySpace c = true) ∧ (∀ c ∈ q, isPySpace c = true) ∧
      s.data = p ++ (pyStrip s).data ++ q ∧
      (∀ c, (pyStrip s).data.head? = some c → isPySpace c = false) ∧
      (∀ c, (pyStrip s).data.getLast? = some c → isPySpace c = false) := by
  have hstrip : (pyStrip s).data
      = ((s.data.dropWhile isPySpace).reverse.dropWhile isPySpace).reverse := rfl
  refine ⟨s.data.takeWhile isPySpace,
    ((s.data.dropWhile isPySpace).reverse.takeWhile isPySpace).reverse, ?_, ?_, ?_, ?_, ?_⟩
  · intro c hc; exact List.mem_takeWhile_imp hc
  · intro c hc
    rw [List.mem_reverse] at hc
    exact List.mem_takeWhile_imp hc
  · rw [hstrip]
    conv_lhs => rw [← List.takeWhile_append_dropWhile (p := isPySpace) (l := s.data)]
    have hd1 : s.data.dropWhile isPySpace
        = ((s.data.dropWhile isPySpace).reverse.dropWhile isPySpace).reverse
          ++ ((s.data.dropWhile isPySpace).reverse.takeWhile isPySpace).reverse := by
      conv_lhs => rw [← List.reverse_reverse (s.data.dropWhile isPySpace)]
      conv_lhs =>
        rw [← List.takeWhile_append_dropWhile (p := isPySpace)
          (l := (s.data.dropWhile isPySpace).reverse)]
      rw [List.reverse_append]
    rw [List.append_assoc, ← hd1]
  · intro c hc
    rw [hstrip, List.head?_reverse] at hc
    have hne : (s.data.dropWhile isPySpace).reverse.dropWhile isPySpace ≠ [] := by
      intro he; rw [he] at hc; simp at hc
    rw [dropWhile_getLast? _ hne, List.getLast?_reverse] at hc
    exact dropWhile_head?_false s.data c hc
  · intro c hc
    rw [hstrip, List.getLast?_reverse] at hc
    exact dropWhile_head?_false (s.data.dropWhile isPySpace).reverse c hc

/-! ## Run-level helpers -/

theorem homebrewRun_eq (fs : String → Option String)
    (a0 v tp op h4 h5 h6 tmpl : String) (hfs : fs tp = some tmpl) :
    homebrewRun fs [a0, v, tp, op, h4, h5, h6]
      = some (op, safeSubstitute
          (homebrewMap v (pyStrip h4) (pyStrip h5) (pyStrip h6)) tmpl) := by
  simp [homebrewRun, hfs]

theorem scoopRun_eq (fs : String → Option String)
    (a0 v tp op h4 tmpl : String) (hfs : fs tp = some tmpl) :
    scoopRun fs [a0, v, tp, op, h4]
      = some (op, safeSubstitute (scoopMap (scoopVersion v) (pyStrip h4)) tmpl) := by
  simp [scoopRun, hfs]

/-- Rendering a template that is exactly one braced placeholder whose name
maps to `v` yields `v`, verbatim. -/
theorem safeSubstitute_braced (m : List (String × String)) (n v t : String)
    (hn : validName n.data = true)
    (ht : t.data = '$' :: '{' :: (n.data ++ ['}']))
    (hlook : List.lookup n.data (strMap m) = some v.data) :
    safeSubstitute m t = v := by
  have hwf : wfToks [Tok.braced n.data] = true := by simp [wfToks, hn]
  have h := scanM_renderToks (strMap m) [Tok.braced n.data] hwf
  have hflat : flattenToks [Tok.braced n.data] = '$' :: '{' :: (n.data ++ ['}']) := by
    simp [flattenToks]
  show String.mk (scanM (strMap m) .top t.data) = v
  rw [ht, ← hflat, h]
  have hr : renderToks (strMap m) [Tok.braced n.data] = v.data := by
    simp [renderToks, emitBraced, hlook]
  rw [hr]

/-! ## Claims -/

/-- C1: for every template text (given by a well-formed token
decomposition) and all argument values, the rendered output of each script
equals the template text in which every occurrence of each recognized
placeholder (`version`, `hash_mac`, `hash_mac_arm`, `hash_linux` for
Script A; `version64`, `hash_64` for Script B) is replaced by its
corresponding processed argument value, while all other text — including
placeholder-like tokens not in the substitution map — is left verbatim;
rendering is total, so no error is raised. -/
theorem claim_C1_render_refines_spec (ts : List Tok) (hwf : wfToks ts = true)
    (version hash_mac hash_mac_arm hash_linux version64 hash_64 : String) :
    safeSubstitute (homebrewMap version hash_mac hash_mac_arm hash_linux)
        ⟨flattenToks ts⟩
      = ⟨renderToks (strMap (homebrewMap version hash_mac hash_mac_arm hash_linux)) ts⟩
    ∧ safeSubstitute (scoopMap version64 hash_64) ⟨flattenToks ts⟩
      = ⟨renderToks (strMap (scoopMap version64 hash_64)) ts⟩ :=
  ⟨congrArg String.mk (scanM_renderToks _ ts hwf),
   congrArg String.mk (scanM_renderToks _ ts hwf)⟩

/-- A concrete token decomposition exercising every token kind: literal
text, a recognized braced placeholder, the escape, a recognized plain
placeholder and an unrecognized braced placeholder. -/
def exampleToks : List Tok :=
  [Tok.lit "url ".data, Tok.braced "hash_mac".data, Tok.esc,
   Tok.name "version".data, Tok.braced "other".data]

/-- Witness for C1 at a concrete well-formed template. -/
theorem claim_C1_witness :
    wfToks exampleToks = true ∧
    safeSubstitute (homebrewMap "1.0" "A" "B" "C") ⟨flattenToks exampleToks⟩
      = ⟨renderToks (strMap (homebrewMap "1.0" "A" "B" "C")) exampleToks⟩ :=
  ⟨by decide,
   (claim_C1_render_refines_spec exampleToks (by decide) "1.0" "A" "B" "C" "v" "h").1⟩

/-- C2 counterexample: the version argument `"dev1"` has no leading `v`,
yet Script B does not pass it through unchanged — `"dev1".replace("v", "")`
is `"de1"`, because `str.replace` removes every occurrence of `v`, not
just a leading one. -/
theorem claim_C2_counterexample :
    ("dev1" : String).data.head? ≠ some 'v' ∧ scoopVersion "dev1" ≠ "dev1" := by
  decide

/-- C2 (amended): Script B's processed version equals the version argument
with every occurrence of the lowercase character `v` removed (so
`"v2.0.0"` becomes `"2.0.0"`, but non-leading `v`s are removed too); a
version containing no `v` at all is passed through unchanged. -/
theorem claim_C2_replace_removes_all_v :
    (∀ s : String, scoopVersion s = ⟨s.data.filter (fun c => c != 'v')⟩)
    ∧ scoopVersion "v2.0.0" = "2.0.0"
    ∧ (∀ s : String, (∀ c ∈ s.data, c ≠ 'v') → scoopVersion s = s) := by
  have hfilter : ∀ l : List Char, pyReplaceChar 'v' l = l.filter (fun c => c != 'v') := by
    intro l
    induction l with
    | nil => rfl
    | cons c cs ih =>
        by_cases hc : c = 'v'
        · subst hc; simp [pyReplaceChar, List.filter_cons, ih]
        · simp [pyReplaceChar, List.filter_cons, hc, ih]
  refine ⟨fun s => congrArg String.mk (hfilter s.data), by decide, fun s hs => ?_⟩
  show String.mk (pyReplaceChar 'v' s.data) = s
  rw [hfilter s.data, List.filter_eq_self.mpr (fun c hc => by simpa using hs c hc)]

/-- Witness for C2's amended theorem at a concrete `v`-free version. -/
theorem claim_C2_witness : scoopVersion "1.0.0" = "1.0.0" :=
  claim_C2_replace_removes_all_v.2.2 "1.0.0" (by decide)

/-- C3: every hash argument (positions 4–6 of Script A, position 4 of
Script B) is stripped of leading and trailing whitespace — and changed in
no other way — before it enters the substitution map: `pyStrip` removes
exactly a whitespace prefix and suffix, `"  abc123  \n"` is substituted as
`"abc123"`, and a script run whose template is one hash placeholder
outputs exactly the stripped hash argument. -/
theorem claim_C3_hashes_stripped :
    (∀ s : String, ∃ p q : List Char,
        (∀ c ∈ p, isPySpace c = true) ∧ (∀ c ∈ q, isPySpace c = true) ∧
        s.data = p ++ (pyStrip s).data ++ q ∧
        (∀ c, (pyStrip s).data.head? = some c → isPySpace c = false) ∧
        (∀ c, (pyStrip s).data.getLast? = some c → isPySpace c = false))
    ∧ pyStrip "  abc123  \n" = "abc123"
    ∧ (∀ (fs : String → Option String) (a0 v tp op h4 h5 h6 : String),
        fs tp = some "${hash_mac}" →
        homebrewRun fs [a0, v, tp, op, h4, h5, h6] = some (op, pyStrip h4))
    ∧ (∀ (fs : String → Option String) (a0 v tp op h4 h5 h6 : String),
        fs tp = some "${hash_mac_arm}" →
        homebrewRun fs [a0, v, tp, op, h4, h5, h6] = some (op, pyStrip h5))
    ∧ (∀ (fs : String → Option String) (a0 v tp op h4 h5 h6 : String),
        fs tp = some "${hash_linux}" →
        homebrewRun fs [a0, v, tp, op, h4, h5, h6] = some (op, pyStrip h6))
    ∧ (∀ (fs : String → Option String) (a0 v tp op h4 : String),
        fs tp = some "${hash_64}" →
        scoopRun fs [a0, v, tp, op, h4] = some (op, pyStrip h4)) := by
  refine ⟨pyStrip_spec, by decide, ?_, ?_, ?_, ?_⟩
  · intro fs a0 v tp op h4 h5 h6 hfs
    rw [homebrewRun_eq fs a0 v tp op h4 h5 h6 _ hfs]
    rw [safeSubstitute_braced _ "hash_mac" (pyStrip h4) _ (by decide) (by decide)
      (by simp +decide [List.lookup, strMap, homebrewMap])]
  · intro fs a0 v tp op h4 h5 h6 hfs
    rw [homebrewRun_eq fs a0 v tp op h4 h5 h6 _ hfs]
    rw [safeSubstitute_braced _ "hash_mac_arm" (pyStrip h5) _ (by decide) (by decide)
      (by simp +decide [List.lookup, strMap, homebrewMap])]
  · intro fs a0 v tp op h4 h5 h6 hfs
    rw [homebrewRun_eq fs a0 v tp op h4 h5 h6 _ hfs]
    rw [safeSubstitute_braced _ "hash_linux" (pyStrip h6) _ (by decide) (by decide)
      (by simp +decide [List.lookup, strMap, homebrewMap])]
  · intro fs a0 v tp op h4 hfs
    rw [scoopRun_eq fs a0 v tp op h4 _ hfs]
    rw [safeSubstitute_braced _ "hash_64" (pyStrip h4) _ (by decide) (by decide)
      (by simp +decide [List.lookup, strMap, scoopMap])]

/-- Witness for C3 at a concrete run of Script A. -/
theorem claim_C3_witness :
    homebrewRun (fun p => if p = "t" then some "${hash_mac}" else none)
      ["p", "1.0", "t", "o", "  abc123  \n", "x", "y"]
      = some ("o", pyStrip "  abc123  \n") :=
  claim_C3_hashes_stripped.2.2.1 _ "p" "1.0" "t" "o" "  abc123  \n" "x" "y" (by decide)

/-- C4: with fewer positional values than the scripts index (argv shorter
than 7 entries for Script A — program name plus six arguments — or shorter
than 5 for Script B), the run aborts with the index error and produces no
output file. -/
theorem claim_C4_missing_arguments (fs : String → Option String)
    (argv : List String) :
    (argv.length < 7 → homebrewRun fs argv = none)
    ∧ (argv.length < 5 → scoopRun fs argv = none) := by
  constructor
  · intro hlen
    have h6 : argv[6]? = none := List.getElem?_eq_none (by omega)
    rcases h1 : argv[1]? with _ | a1 <;>
    rcases h2 : argv[2]? with _ | a2 <;>
    rcases h3 : argv[3]? with _ | a3 <;>
    rcases h4 : argv[4]? with _ | a4 <;>
    rcases h5 : argv[5]? with _ | a5 <;>
      simp [homebrewRun, h1, h2, h3, h4, h5, h6]
  · intro hlen
    have h4 : argv[4]? = none := List.getElem?_eq_none (by omega)
    rcases h1 : argv[1]? with _ | a1 <;>
    rcases h2 : argv[2]? with _ | a2 <;>
    rcases h3 : argv[3]? with _ | a3 <;>
      simp [scoopRun, h1, h2, h3, h4]

/-- Witness for C4: a four-entry argv kills Script A and a two-entry argv
kills Script B. -/
theorem claim_C4_witness :
    (["p", "v1", "t", "o"] : List String).length < 7
    ∧ homebrewRun (fun _ => none) ["p", "v1", "t", "o"] = none
    ∧ (["p", "v1"] : List String).length < 5
    ∧ scoopRun (fun _ => none) ["p", "v1"] = none :=
  ⟨by decide,
   (claim_C4_missing_arguments (fun _ => none) ["p", "v1", "t", "o"]).1 (by decide),
   by decide,
   (claim_C4_missing_arguments (fun _ => none) ["p", "v1"]).2 (by decide)⟩

/-- C5: a template containing no recognized placeholder of the invoking
script renders to itself, except that each literal `$$` escape becomes the
single delimiter `$`. -/
theorem claim_C5_no_placeholders_only_escapes
    (version hash_mac hash_mac_arm hash_linux version64 hash_64 t : String) :
    (usesRecognized (homebrewMap version hash_mac hash_mac_arm hash_linux) t = false →
      safeSubstitute (homebrewMap version hash_mac hash_mac_arm hash_linux) t
        = ⟨replaceEscapes t.data⟩)
    ∧ (usesRecognized (scoopMap version64 hash_64) t = false →
      safeSubstitute (scoopMap version64 hash_64) t = ⟨replaceEscapes t.data⟩) := by
  constructor <;> intro h <;>
    exact congrArg String.mk
      (by simpa [modePre] using scanM_no_hits _ t.data .top trivial h)

/-- Witness for C5: a template with an escape, an unrecognized braced
placeholder and an unrecognized plain placeholder. -/
theorem claim_C5_witness :
    usesRecognized (homebrewMap "1" "2" "3" "4") "pay $$5 to ${other} or $name9" = false
    ∧ safeSubstitute (homebrewMap "1" "2" "3" "4") "pay $$5 to ${other} or $name9"
      = ⟨replaceEscapes ("pay $$5 to ${other} or $name9" : String).data⟩ :=
  ⟨by decide,
   (claim_C5_no_placeholders_only_escapes "1" "2" "3" "4" "v" "h"
     "pay $$5 to ${other} or $name9").1 (by decide)⟩

/-- C6: rendering is deterministic — two invocations of the same script on
the same filesystem and the same argument list produce identical results
(hence byte-identical rendered output). -/
theorem claim_C6_deterministic (fs fs' : String → Option String)
    (argv argv' : List String) (hfs : fs = fs') (hargv : argv = argv') :
    homebrewRun fs argv = homebrewRun fs' argv'
    ∧ scoopRun fs argv = scoopRun fs' argv' := by
  subst hfs; subst hargv; exact ⟨rfl, rfl⟩

/-- Witness for C6 at a concrete invocation. -/
theorem claim_C6_witness :
    homebrewRun (fun _ => some "x") ["p", "1", "t", "o", "a", "b", "c"]
      = homebrewRun (fun _ => some "x") ["p", "1", "t", "o", "a", "b", "c"]
    ∧ scoopRun (fun _ => some "x") ["p", "1", "t", "o", "a"]
      = scoopRun (fun _ => some "x") ["p", "1", "t", "o", "a"] :=
  claim_C6_deterministic _ _ _ _ rfl rfl

/-- C7: Script A on template `"hash: ${hash_mac}, version: ${version}"`
with `version="1.0.0"`, `hash_mac="deadbeef "`, `hash_mac_arm="x"`,
`hash_linux="y"` renders exactly `"hash: deadbeef, version: 1.0.0"`. -/
theorem claim_C7_homebrew_example :
    homebrewRun
      (fun p => if p = "formula.rb.template"
        then some "hash: ${hash_mac}, version: ${version}" else none)
      ["packager.py", "1.0.0", "formula.rb.template", "formula.rb",
       "deadbeef ", "x", "y"]
      = some ("formula.rb", "hash: deadbeef, version: 1.0.0") := by
  decide

/-- C8: Script B on template `"v=${version64} h=${hash_64}"` with
`version="v3.1.4"` and `hash_64="feed"` renders exactly
`"v=3.1.4 h=feed"`. -/
theorem claim_C8_scoop_example :
    scoopRun
      (fun p => if p = "scoop.json.template"
        then some "v=${version64} h=${hash_64}" else none)
      ["packager.py", "v3.1.4", "scoop.json.template", "scoop.json", "feed"]
      = some ("scoop.json", "v=3.1.4 h=feed") := by
  decide

/-- C9: when the template file is unreadable (the read yields nothing),
both scripts die before the output file is opened for writing: no
(output path, contents) write is produced. -/
theorem claim_C9_unreadable_template_no_write (fs : String → Option String)
    (argv : List String) (tp : String)
    (h2 : argv[2]? = some tp) (hfs : fs tp = none) :
    homebrewRun fs argv = none ∧ scoopRun fs argv = none := by
  constructor
  · rcases h1 : argv[1]? with _ | a1 <;>
    rcases h3 : argv[3]? with _ | a3 <;>
    rcases h4 : argv[4]? with _ | a4 <;>
    rcases h5 : argv[5]? with _ | a5 <;>
    rcases h6 : argv[6]? with _ | a6 <;>
      simp [homebrewRun, h1, h2, h3, h4, h5, h6, hfs]
  · rcases h1 : argv[1]? with _ | a1 <;>
    rcases h3 : argv[3]? with _ | a3 <;>
    rcases h4 : argv[4]? with _ | a4 <;>
      simp [scoopRun, h1, h2, h3, h4, hfs]

/-- Witness for C9: a full argument list but an absent template file. -/
theorem claim_C9_witness :
    homebrewRun (fun _ => none) ["p", "v1", "t", "o", "a", "b", "c"] = none
    ∧ scoopRun (fun _ => none) ["p", "v1", "t", "o", "a", "b", "c"] = none :=
  claim_C9_unreadable_template_no_write (fun _ => none)
    ["p", "v1", "t", "o", "a", "b", "c"] "t" (by decide) rfl

/-- C10: Script A substitutes its version argument verbatim: a run whose
template is exactly the version placeholder outputs the raw first
argument, whatever it is — no whitespace stripping, no `v` removal. -/
theorem claim_C10_version_verbatim (fs : String → Option String)
    (a0 v tp op h4 h5 h6 : String) (hfs : fs tp = some "${version}") :
    homebrewRun fs [a0, v, tp, op, h4, h5, h6] = some (op, v) := by
  rw [homebrewRun_eq fs a0 v tp op h4 h5 h6 _ hfs]
  rw [safeSubstitute_braced _ "version" v _ (by decide) (by decide)
    (by simp +decide [List.lookup, strMap, homebrewMap])]

/-- Witness for C10 with a version argument that contains whitespace and
`v` characters, both preserved. -/
theorem claim_C10_witness :
    homebrewRun (fun p => if p = "t" then some "${version}" else none)
      ["p", " v1.2v ", "t", "o", "a", "b", "c"]
      = some ("o", " v1.2v ") :=
  claim_C10_version_verbatim _ "p" " v1.2v " "t" "o" "a" "b" "c" (by decide)

end Packager
